import Mathlib

/-!
Verification of the scene/segment reconciliation, silence-complement and
thumbnail-scoring logic of the video-scene-editor repository.

Timestamps are JavaScript numbers; they are embedded as exact rationals
(`ℚ`).  Effectful external-tool invocations (ffmpeg trims, concatenation)
are modelled by boolean outcome oracles, and the filesystem effect that
matters here (temporary files left behind by a run) is tracked explicitly.
-/

namespace VideoSceneEditor

/-- A segment `{ start, end, duration }` as built by `splitByScenes`
(src/unnamed/part_002 lines 109-121) and `mergeScenes` (lines 138-146).
The JS field `end` is named `stop` because `end` is a Lean keyword. -/
structure Segment where
  start : ℚ
  stop : ℚ
  duration : ℚ
deriving DecidableEq

/-- One segment per consecutive pair of boundary timestamps: the loop
`for (let i = 0; i < allTimestamps.length - 1; i++)` with
`start = a[i]`, `end = a[i+1]`, `duration = end - start`. -/
def segmentsOf : List ℚ → List Segment
  | a :: b :: rest => ⟨a, b, b - a⟩ :: segmentsOf (b :: rest)
  | _ => []

/-- `allTimestamps = [0, ...timestamps, duration]` followed by the
consecutive-pair walk; shared by `splitByScenes` and `mergeScenes`. -/
def buildSegments (timestamps : List ℚ) (duration : ℚ) : List Segment :=
  segmentsOf (0 :: timestamps ++ [duration])

/-- The duration filter of `mergeScenes` (lines 138-146):
`if (segDuration >= minDuration) validSegments.push(...)`. -/
def filterSegments (segs : List Segment) (minDuration : ℚ) : List Segment :=
  segs.filter (fun s => minDuration ≤ s.duration)

theorem segmentsOf_length : ∀ l : List ℚ, (segmentsOf l).length = l.length - 1
  | [] => rfl
  | [_] => rfl
  | _ :: b :: rest => by
    simp only [segmentsOf, List.length_cons, segmentsOf_length (b :: rest)]
    omega

theorem segmentsOf_chain :
    ∀ l : List ℚ, List.Chain' (fun s t => s.stop = t.start) (segmentsOf l)
  | [] => List.chain'_nil
  | [_] => List.chain'_nil
  | [_, _] => by simp [segmentsOf]
  | a :: b :: c :: rest => by
    have ih := segmentsOf_chain (b :: c :: rest)
    simp only [segmentsOf] at ih ⊢
    exact List.chain'_cons.mpr ⟨rfl, ih⟩

theorem segmentsOf_sum :
    ∀ (a : ℚ) (l : List ℚ),
      ((segmentsOf (a :: l)).map Segment.duration).sum = l.getLastD a - a
  | _, [] => by simp [segmentsOf]
  | a, b :: rest => by
    have ih := segmentsOf_sum b rest
    simp only [segmentsOf, List.map_cons, List.sum_cons, ih, List.getLastD_cons]
    ring

theorem segmentsOf_head_start (a b : ℚ) (l : List ℚ) :
    ((segmentsOf (a :: b :: l)).head?).map Segment.start = some a := by
  simp [segmentsOf]

theorem segmentsOf_getLast_stop :
    ∀ (a b : ℚ) (l : List ℚ),
      ((segmentsOf (a :: b :: l)).getLast?).map Segment.stop
        = some ((b :: l).getLastD b)
  | _, _, [] => by simp [segmentsOf]
  | a, b, c :: rest => by
    have ih := segmentsOf_getLast_stop b c rest
    simp only [segmentsOf] at ih ⊢
    rw [List.getLast?_cons_cons]
    simpa [List.getLastD_cons] using ih

/-- Errors thrown by `mergeScenes`: the empty-filter error
`"No valid segments found after filtering"` (line 149) and a failed
external invocation propagated by `exec` (lines 47-53). -/
inductive MergeError where
  | emptyResult
  | engineFailure (step : String)
deriving DecidableEq

/-- Temporary file name `temp_scene_${i}.mp4` (line 155). -/
def tempName (i : ℕ) : String := "temp_scene_" ++ toString i ++ ".mp4"

/-- Outcome of a `mergeScenes` run: the result (output path or thrown
error) together with the temporary files the run leaves behind. -/
structure MergeRun where
  result : Except MergeError String
  leftoverTemps : List String

/-- `mergeScenes` (src/unnamed/part_002 lines 127-176), with the two
kinds of external invocation abstracted by outcome oracles: `trimOk i`
tells whether the i-th per-segment trim succeeds, `concatOk` whether the
final concatenation succeeds.  Control flow is the source's: throw
`emptyResult` when no segment survives the duration filter; run the trims
in order, aborting at the first failure (files already produced remain);
write `merge_list.txt`; run the concatenation; only after it returns
successfully delete the temporary files and the manifest (lines 169-173). -/
def mergeScenesRun (timestamps : List ℚ) (duration minDuration : ℚ)
    (outputFile : String) (trimOk : ℕ → Bool) (concatOk : Bool) : MergeRun :=
  let validSegments := filterSegments (buildSegments timestamps duration) minDuration
  if validSegments.length = 0 then
    ⟨.error .emptyResult, []⟩
  else
    match (List.range validSegments.length).find? (fun i => !(trimOk i)) with
    | some i => ⟨.error (.engineFailure "trim"), (List.range i).map tempName⟩
    | none =>
      if concatOk then
        ⟨.ok outputFile, []⟩
      else
        ⟨.error (.engineFailure "concat"),
          ((List.range validSegments.length).map tempName) ++ ["merge_list.txt"]⟩

/-- `splitByScenes` (lines 99-124) trims one clip per consecutive pair of
`[0, ...timestamps, duration]`; the clips correspond one-to-one to these
segments. -/
def splitByScenes (timestamps : List ℚ) (duration : ℚ) : List Segment :=
  segmentsOf (0 :: timestamps ++ [duration])

/-- The summary record returned by `autoEdit` (lines 206-213). -/
structure AutoEditResult where
  originalDuration : ℚ
  scenesDetected : ℕ
  clipsCreated : ℕ
  mergedFile : String
deriving DecidableEq

/-- `autoEdit` (lines 179-214): detected change points (and the
lower-threshold fallback list used when the first detection is empty) come
from the engine and are parameters; `splitOk` is the outcome oracle for
the split-step trims (a failure propagates out of `splitByScenes`), and
the merge step is `mergeScenesRun`.  A successful run returns the summary
with `scenesDetected = timestamps.length` and `clipsCreated = clips.length`. -/
def autoEditRun (detected fallback : List ℚ) (duration minDuration : ℚ)
    (splitOk : ℕ → Bool) (trimOk : ℕ → Bool) (concatOk : Bool) :
    Except MergeError AutoEditResult :=
  let timestamps := if detected.isEmpty then fallback else detected
  let clips := splitByScenes timestamps duration
  if (List.range clips.length).all splitOk then
    match (mergeScenesRun timestamps duration minDuration "auto_merged.mp4"
        trimOk concatOk).result with
    | .error e => .error e
    | .ok f => .ok ⟨duration, timestamps.length, clips.length, f⟩
  else .error (.engineFailure "trim")

/-- A silence interval as produced by `detectSilence`
(src/unnamed/part_001 lines 47-59): the end may be unresolved (`null`)
when the video ends while still silent.  The JS field `end` is named
`stop`. -/
structure SilenceItv where
  start : ℚ
  stop : Option ℚ
deriving DecidableEq

/-- JavaScript number coercion applied to a possibly-`null` value inside
arithmetic and `Math.min`/`Math.max`: `null` coerces to `0`. -/
def jsNum : Option ℚ → ℚ
  | none => 0
  | some x => x

/-- The silence-complement loop of `removeSilence` (src/unnamed/part_001
lines 100-113): walk the silences with a cursor starting at `0`; for each
silence starting after the cursor emit
`{ start: currentTime, end: Math.min(silence.start + padding, silence.end),
duration: silence.start - currentTime + padding }` and advance the cursor
to `Math.max(silence.end - padding, silence.start)`.  A `null` end passes
through JS coercion (`jsNum`), exactly as in the source.  Returns the
emitted intervals and the final cursor. -/
def silenceWalk (padding : ℚ) : List SilenceItv → ℚ → List Segment × ℚ
  | [], currentTime => ([], currentTime)
  | silence :: rest, currentTime =>
    let emitted : List Segment :=
      if currentTime < silence.start then
        [⟨currentTime, min (silence.start + padding) (jsNum silence.stop),
          silence.start - currentTime + padding⟩]
      else []
    let next := silenceWalk padding rest
      (max (jsNum silence.stop - padding) silence.start)
    (emitted ++ next.1, next.2)

/-- The keep intervals computed by `removeSilence` (lines 100-122): the
loop above followed by the final interval
`{ start: currentTime, end: totalDuration }` when
`currentTime < totalDuration`. -/
def removeSilenceKeeps (silences : List SilenceItv) (totalDuration padding : ℚ) :
    List Segment :=
  let w := silenceWalk padding silences 0
  w.1 ++ (if w.2 < totalDuration then
    [⟨w.2, totalDuration, totalDuration - w.2⟩] else [])

/-- The same walk as specified in spec §4.2: an unresolved (`null`) end is
treated as `totalDuration`, with no arithmetic performed on the null.
Used only to compare the source's behavior against the spec's words. -/
def specSilenceWalk (padding totalDuration : ℚ) :
    List SilenceItv → ℚ → List Segment × ℚ
  | [], currentTime => ([], currentTime)
  | silence :: rest, currentTime =>
    let e := match silence.stop with
      | none => totalDuration
      | some x => x
    let emitted : List Segment :=
      if currentTime < silence.start then
        [⟨currentTime, min (silence.start + padding) e,
          silence.start - currentTime + padding⟩]
      else []
    let next := specSilenceWalk padding totalDuration rest
      (max (e - padding) silence.start)
    (emitted ++ next.1, next.2)

/-- Spec-side complement of the silence list (spec §4.2), built from
`specSilenceWalk`. -/
def specComplementKeeps (silences : List SilenceItv) (totalDuration padding : ℚ) :
    List Segment :=
  let w := specSilenceWalk padding totalDuration silences 0
  w.1 ++ (if w.2 < totalDuration then
    [⟨w.2, totalDuration, totalDuration - w.2⟩] else [])

/-- A candidate frame `{ timestamp, score }`
(src/thumbnail_generator.js line 75). -/
structure Frame where
  timestamp : ℚ
  score : ℚ
deriving DecidableEq

/-- Stable insertion of a frame into a list sorted by descending score:
the element is placed before the first entry whose score it reaches.
`insertDesc`/`sortDesc` compute the unique stable descending sort, which
is what `frames.sort((a, b) => b.score - a.score)` produces
(`Array.prototype.sort` is stable). -/
def insertDesc (x : Frame) : List Frame → List Frame
  | [] => [x]
  | y :: ys => if y.score ≤ x.score then x :: y :: ys else y :: insertDesc x ys

/-- Stable descending sort by score; see `insertDesc`. -/
def sortDesc : List Frame → List Frame
  | [] => []
  | x :: xs => insertDesc x (sortDesc xs)

/-- The candidate timestamps sampled by `findBestThumbnailFrame`
(src/thumbnail_generator.js lines 64-76): `startTime = duration * 0.1`,
`endTime = duration * 0.9`, `interval = (endTime - startTime) / candidates`,
candidates `startTime + i * interval` for `i` in `[0, candidates)`. -/
def candidateTimestamps (duration : ℚ) (candidates : ℕ) : List ℚ :=
  let startTime := duration * (1/10)
  let endTime := duration * (9/10)
  let interval := (endTime - startTime) / (candidates : ℚ)
  (List.range candidates).map fun i : ℕ => startTime + (i : ℚ) * interval

/-- `findBestThumbnailFrame` (src/thumbnail_generator.js lines 56-86):
score every candidate with the caller's quality function, sort the frames
by descending score (stable) and return the timestamp of the first one.
`none` only when there are zero candidates. -/
def findBestThumbnailFrame (duration : ℚ) (candidates : ℕ)
    (qualityFn : ℚ → ℚ) : Option ℚ :=
  let frames := (candidateTimestamps duration candidates).map
    fun t => Frame.mk t (qualityFn t)
  ((sortDesc frames).head?).map Frame.timestamp

/-- C1: for every strictly increasing change-point list lying in
`(0, D)`, building segments (prepending `0` and appending `D`, one
segment per consecutive pair, as `splitByScenes`/`mergeScenes` do) yields
exactly `len(changePoints) + 1` segments; the first starts at `0`, the
last ends at `D`, each segment's start equals the previous segment's end,
and the durations sum to `D`.  For the empty change-point list the result
is the single segment `[0, D)`. -/
theorem buildSegments_reconciliation (ts : List ℚ) (D : ℚ)
    (hinc : List.Chain' (· < ·) ts) (hrange : ∀ t ∈ ts, 0 < t ∧ t < D) :
    (buildSegments ts D).length = ts.length + 1 ∧
    ((buildSegments ts D).head?).map Segment.start = some 0 ∧
    ((buildSegments ts D).getLast?).map Segment.stop = some D ∧
    List.Chain' (fun s t => s.stop = t.start) (buildSegments ts D) ∧
    ((buildSegments ts D).map Segment.duration).sum = D ∧
    (ts = [] → buildSegments ts D = [⟨0, D, D⟩]) := by
  refine ⟨?_, ?_, ?_, segmentsOf_chain _, ?_, ?_⟩
  · rw [buildSegments, segmentsOf_length]
    simp
  · cases ts with
    | nil => simp [buildSegments, segmentsOf]
    | cons a ts' =>
      simpa [buildSegments] using segmentsOf_head_start 0 a (ts' ++ [D])
  · cases ts with
    | nil => simp [buildSegments, segmentsOf]
    | cons a ts' =>
      have h := segmentsOf_getLast_stop 0 a (ts' ++ [D])
      rw [buildSegments]
      simp only [List.cons_append]
      rw [h]
      have : (a :: (ts' ++ [D])).getLastD a = D := by
        rw [show a :: (ts' ++ [D]) = (a :: ts') ++ [D] by simp,
          List.getLastD_concat]
      rw [this]
  · have h := segmentsOf_sum 0 (ts ++ [D])
    rw [buildSegments]
    simp only [List.cons_append]
    rw [h, List.getLastD_concat]
    ring
  · rintro rfl
    simp [buildSegments, segmentsOf]

/-- Witness for C1 at change points `[1, 2]` and total duration `3`. -/
theorem buildSegments_reconciliation_witness :
    List.Chain' (· < ·) ([1, 2] : List ℚ) ∧
    ((buildSegments [1, 2] 3).length = [1, 2].length + 1 ∧
    ((buildSegments [1, 2] 3).head?).map Segment.start = some 0 ∧
    ((buildSegments [1, 2] 3).getLast?).map Segment.stop = some 3 ∧
    List.Chain' (fun s t => s.stop = t.start) (buildSegments [1, 2] 3) ∧
    ((buildSegments [1, 2] 3).map Segment.duration).sum = 3 ∧
    (([1, 2] : List ℚ) = [] → buildSegments [1, 2] 3 = [⟨0, 3, 3⟩])) :=
  ⟨by norm_num [List.chain'_cons],
    buildSegments_reconciliation [1, 2] 3 (by norm_num [List.chain'_cons])
      (by norm_num)⟩

/-- C2: the duration filter of `mergeScenes` returns an order-preserving
subsequence of its input; every retained segment has
`duration >= minDuration`, and every input segment with
`duration >= minDuration` is retained (nothing is reordered, merged or
redistributed). -/
theorem filterSegments_subsequence (segs : List Segment) (minD : ℚ) :
    (filterSegments segs minD).Sublist segs ∧
    (∀ s ∈ filterSegments segs minD, minD ≤ s.duration) ∧
    (∀ s ∈ segs, minD ≤ s.duration → s ∈ filterSegments segs minD) := by
  refine ⟨List.filter_sublist _, ?_, ?_⟩
  · intro s hs
    simpa using List.of_mem_filter hs
  · intro s hs h
    exact List.mem_filter.mpr ⟨hs, by simpa using h⟩

/-- C3: `mergeScenes` throws the empty-result error exactly when every
derived segment has duration strictly below `minDuration`; whenever at
least one segment survives the filter, the run never fails with that
error (it may still fail with an engine error, but not this one). -/
theorem mergeScenes_emptyResult_iff (ts : List ℚ) (D minD : ℚ) (out : String)
    (trimOk : ℕ → Bool) (concatOk : Bool) :
    (mergeScenesRun ts D minD out trimOk concatOk).result
        = Except.error MergeError.emptyResult ↔
      ∀ s ∈ buildSegments ts D, s.duration < minD := by
  constructor
  · intro h s hs
    by_contra hle
    push_neg at hle
    have hmem : s ∈ filterSegments (buildSegments ts D) minD :=
      List.mem_filter.mpr ⟨hs, by simpa using hle⟩
    have hne : ¬ (filterSegments (buildSegments ts D) minD).length = 0 := by
      intro h0
      rw [List.length_eq_zero] at h0
      rw [h0] at hmem
      simp at hmem
    rw [mergeScenesRun, if_neg hne] at h
    rcases hf : (List.range (filterSegments (buildSegments ts D) minD).length).find?
        (fun i => !(trimOk i)) with _ | i
    · rw [hf] at h
      cases hc : concatOk <;> rw [hc] at h <;> simp at h
    · rw [hf] at h
      simp at h
  · intro h
    have hnil : filterSegments (buildSegments ts D) minD = [] := by
      refine List.filter_eq_nil_iff.mpr ?_
      intro s hs
      simpa using not_le.mpr (h s hs)
    rw [mergeScenesRun, hnil]
    simp

theorem silenceWalk_invariant (padding : ℚ) (hpad : 0 ≤ padding) :
    ∀ (l : List SilenceItv) (c : ℚ),
      List.Chain' (fun a b => jsNum a.stop ≤ b.start) l →
      (∀ si ∈ l, si.start + 2 * padding ≤ jsNum si.stop) →
      (∀ si, l.head? = some si → c ≤ si.start) →
      List.Chain' (fun s t => s.stop ≤ t.start) (silenceWalk padding l c).1 ∧
      (∀ s ∈ (silenceWalk padding l c).1,
        c ≤ s.start ∧ s.stop ≤ (silenceWalk padding l c).2) ∧
      c ≤ (silenceWalk padding l c).2
  | [], c, _, _, _ => by simp [silenceWalk]
  | si :: rest, c, hchain, hwidth, hhead => by
    have hw : si.start + 2 * padding ≤ jsNum si.stop :=
      hwidth si (List.mem_cons_self _ _)
    have hcs : c ≤ si.start := hhead si rfl
    obtain ⟨hrel, htail⟩ := List.chain'_cons'.mp hchain
    have hc'₂ : si.start ≤ max (jsNum si.stop - padding) si.start := le_max_right _ _
    have hc'e : max (jsNum si.stop - padding) si.start ≤ jsNum si.stop :=
      max_le (by linarith) (by linarith)
    have ih := silenceWalk_invariant padding hpad rest
      (max (jsNum si.stop - padding) si.start) htail
      (fun s hs => hwidth s (List.mem_cons_of_mem _ hs))
      (fun b hb => le_trans hc'e (hrel b (by rw [hb]; rfl)))
    obtain ⟨ihC, ihM, ihLe⟩ := ih
    have hcc' : c ≤ max (jsNum si.stop - padding) si.start := le_trans hcs hc'₂
    by_cases hlt : c < si.start
    · simp only [silenceWalk, if_pos hlt, List.singleton_append]
      have hkstop : min (si.start + padding) (jsNum si.stop)
          ≤ max (jsNum si.stop - padding) si.start :=
        le_trans (min_le_left _ _) (le_trans (by linarith) (le_max_left _ _))
      refine ⟨?_, ?_, le_trans hcc' ihLe⟩
      · refine List.chain'_cons'.mpr ⟨?_, ihC⟩
        intro y hy
        have hym := (ihM y (List.mem_of_mem_head? hy)).1
        exact le_trans hkstop hym
      · intro s hs
        rcases List.mem_cons.mp hs with rfl | hs'
        · exact ⟨le_refl _, le_trans hkstop ihLe⟩
        · exact ⟨le_trans hcc' (ihM s hs').1, (ihM s hs').2⟩
    · simp only [silenceWalk, if_neg hlt, List.nil_append]
      exact ⟨ihC, fun s hs => ⟨le_trans hcc' (ihM s hs).1, (ihM s hs).2⟩,
        le_trans hcc' ihLe⟩

/-- C4 (amended): provided additionally that every silence interval is
resolved and at least `2 * padding` long, the keep intervals emitted by
the complement walk of `removeSilence` are pairwise non-overlapping and
time-ordered: each starts at or after the end of the previous one. -/
theorem removeSilenceKeeps_ordered (l : List SilenceItv) (D padding : ℚ)
    (hpad : 0 ≤ padding)
    (hsorted : List.Chain' (fun a b => jsNum a.stop ≤ b.start) l)
    (hwidth : ∀ si ∈ l, si.start + 2 * padding ≤ jsNum si.stop)
    (hnn : ∀ si ∈ l, 0 ≤ si.start) :
    List.Chain' (fun s t => s.stop ≤ t.start) (removeSilenceKeeps l D padding) := by
  obtain ⟨hC, hM, hLe⟩ := silenceWalk_invariant padding hpad l 0 hsorted hwidth
    (fun si hsi => hnn si (List.mem_of_mem_head? (by rw [hsi]; rfl)))
  rw [removeSilenceKeeps]
  refine List.chain'_append.mpr ⟨hC, ?_, ?_⟩
  · by_cases h : (silenceWalk padding l 0).2 < D
    · simp [h]
    · simp [h]
  · intro x hx y hy
    have hxm : x ∈ (silenceWalk padding l 0).1 := List.mem_of_mem_getLast? hx
    by_cases h : (silenceWalk padding l 0).2 < D
    · rw [if_pos h] at hy
      simp only [List.head?_cons, Option.mem_def, Option.some.injEq] at hy
      rw [← hy]
      exact (hM x hxm).2
    · rw [if_neg h] at hy
      simp at hy

/-- C4 counterexample: with a 0.1-second silence `[2.0, 2.1]` and
padding `0.5` (a legal input of the claim: time-ordered, disjoint,
padding nonnegative), the two emitted keep intervals `[0, 2.1)` and
`[2, 10)` overlap, so the claim as stated is false. -/
theorem removeSilenceKeeps_overlap_cex :
    (0 : ℚ) ≤ 1/2 ∧
    List.Chain' (fun a b => jsNum a.stop ≤ b.start)
      [SilenceItv.mk 2 (some (21/10))] ∧
    ¬ List.Chain' (fun s t => s.stop ≤ t.start)
        (removeSilenceKeeps [SilenceItv.mk 2 (some (21/10))] 10 (1/2)) := by
  refine ⟨by norm_num, by simp, ?_⟩
  norm_num [removeSilenceKeeps, silenceWalk, jsNum, List.chain'_cons]

/-- Witness for C4 (amended) at a single silence `[2, 3]`, total duration
`10` and padding `1/4`. -/
theorem removeSilenceKeeps_ordered_witness :
    (0 : ℚ) ≤ 1/4 ∧
    (∀ si ∈ [SilenceItv.mk 2 (some 3)], si.start + 2 * (1/4) ≤ jsNum si.stop) ∧
    List.Chain' (fun s t => s.stop ≤ t.start)
      (removeSilenceKeeps [SilenceItv.mk 2 (some 3)] 10 (1/4)) :=
  ⟨by norm_num, by norm_num [jsNum],
    removeSilenceKeeps_ordered [SilenceItv.mk 2 (some 3)] 10 (1/4)
      (by norm_num) (by simp) (by norm_num [jsNum]) (by norm_num)⟩

theorem silenceWalk_duration (padding : ℚ) :
    ∀ (l : List SilenceItv) (c : ℚ),
      (∀ si ∈ l, si.start + padding ≤ jsNum si.stop) →
      ∀ k ∈ (silenceWalk padding l c).1, k.duration = k.stop - k.start
  | [], c, _, k, hk => by simp [silenceWalk] at hk
  | si :: rest, c, h, k, hk => by
    have hw : si.start + padding ≤ jsNum si.stop := h si (List.mem_cons_self _ _)
    have ih := silenceWalk_duration padding rest
      (max (jsNum si.stop - padding) si.start)
      (fun s hs => h s (List.mem_cons_of_mem _ hs))
    by_cases hlt : c < si.start
    · simp only [silenceWalk, if_pos hlt, List.singleton_append] at hk
      rcases List.mem_cons.mp hk with rfl | hk'
      · simp only [min_eq_left hw]
        ring
      · exact ih k hk'
    · simp only [silenceWalk, if_neg hlt, List.nil_append] at hk
      exact ih k hk

/-- C6 (amended): provided `start + padding <= end` for every silence
interval (the padding does not overrun the silence), every keep interval
emitted by the complement walk of `removeSilence` satisfies
`duration = end - start`. -/
theorem keep_duration_consistent (l : List SilenceItv) (D padding : ℚ)
    (h : ∀ si ∈ l, si.start + padding ≤ jsNum si.stop) :
    ∀ k ∈ removeSilenceKeeps l D padding, k.duration = k.stop - k.start := by
  intro k hk
  rw [removeSilenceKeeps] at hk
  rcases List.mem_append.mp hk with h1 | h2
  · exact silenceWalk_duration padding l 0 h k h1
  · by_cases hlt : (silenceWalk padding l 0).2 < D
    · rw [if_pos hlt] at h2
      rcases List.mem_singleton.mp h2 with rfl
      ring
    · rw [if_neg hlt] at h2
      simp at h2

/-- C6 counterexample: with silence `[2, 2.05]` and padding `0.1`
(padding nonnegative, so a legal input of the claim), the first emitted
keep interval is `{ start: 0, end: 2.05, duration: 2.1 }`, whose stored
duration differs from `end - start`; the claim as stated is false. -/
theorem keep_duration_cex :
    (0 : ℚ) ≤ 1/10 ∧
    Segment.mk 0 (41/20) (21/10) ∈
      removeSilenceKeeps [SilenceItv.mk 2 (some (41/20))] 10 (1/10) ∧
    ¬ ((Segment.mk 0 (41/20) (21/10)).duration
        = (Segment.mk 0 (41/20) (21/10)).stop
          - (Segment.mk 0 (41/20) (21/10)).start) := by
  refine ⟨by norm_num, ?_, by norm_num⟩
  norm_num [removeSilenceKeeps, silenceWalk, jsNum]

/-- Witness for C6 (amended) at silence `[2, 3]`, total duration `10`,
padding `1/2`. -/
theorem keep_duration_consistent_witness :
    (∀ si ∈ [SilenceItv.mk 2 (some 3)], si.start + 1/2 ≤ jsNum si.stop) ∧
    (∀ k ∈ removeSilenceKeeps [SilenceItv.mk 2 (some 3)] 10 (1/2),
      k.duration = k.stop - k.start) :=
  ⟨by norm_num [jsNum],
    keep_duration_consistent [SilenceItv.mk 2 (some 3)] 10 (1/2)
      (by norm_num [jsNum])⟩

/-- C5: the complement walk of `removeSilence` does NOT treat an
unresolved (`null`) terminal silence end as `totalDuration`: JavaScript
coerces the null to `0` inside `Math.min`/`Math.max`, so for the silence
list `[{start: 5, end: null}]`, total duration `10` and padding `0.1` the
source emits `[{0, 0, 5.1}, {5, 10, 5}]` (a keep interval ending at `0`,
and the silent tail retained), while the walk specified in spec §4.2
(effective end `totalDuration`) yields `[{0, 5.1, 5.1}, {9.9, 10, 0.1}]`;
the two disagree. -/
theorem removeSilence_nullEnd_bug :
    removeSilenceKeeps [SilenceItv.mk 5 none] 10 (1/10)
        = [Segment.mk 0 0 (51/10), Segment.mk 5 10 5] ∧
    specComplementKeeps [SilenceItv.mk 5 none] 10 (1/10)
        = [Segment.mk 0 (51/10) (51/10), Segment.mk (99/10) 10 (1/10)] ∧
    removeSilenceKeeps [SilenceItv.mk 5 none] 10 (1/10)
        ≠ specComplementKeeps [SilenceItv.mk 5 none] 10 (1/10) := by
  refine ⟨?_, ?_, ?_⟩
  · norm_num [removeSilenceKeeps, silenceWalk, jsNum]
  · norm_num [specComplementKeeps, specSilenceWalk]
  · norm_num [removeSilenceKeeps, specComplementKeeps, silenceWalk,
      specSilenceWalk, jsNum]

/-- C7 (amended): the temporary files and the manifest are deleted on the
path where every trim and the concatenation succeed (and nothing is
created on the empty-filter path); cleanup is not reached when a step
fails. -/
theorem mergeScenes_cleanup_on_success (ts : List ℚ) (D minD : ℚ) (out : String)
    (trimOk : ℕ → Bool) (h : ∀ i, trimOk i = true) :
    (mergeScenesRun ts D minD out trimOk true).leftoverTemps = [] := by
  rw [mergeScenesRun]
  by_cases h0 : (filterSegments (buildSegments ts D) minD).length = 0
  · rw [if_pos h0]
  · rw [if_neg h0]
    have hfind : (List.range (filterSegments (buildSegments ts D) minD).length).find?
        (fun i => !(trimOk i)) = none := by
      refine List.find?_eq_none.mpr ?_
      intro i _
      simp [h i]
    rw [hfind]
    rfl

/-- C7 counterexample: a run whose single trim succeeds but whose
concatenation fails leaves `temp_scene_0.mp4` and the `merge_list.txt`
manifest behind, so cleanup is not unconditional. -/
theorem mergeScenes_leftover_cex :
    (mergeScenesRun [] 5 1 "out.mp4" (fun _ => true) false).leftoverTemps
        = ["temp_scene_0.mp4", "merge_list.txt"] ∧
    (mergeScenesRun [] 5 1 "out.mp4" (fun _ => true) false).leftoverTemps
        ≠ [] := by
  constructor
  · norm_num [mergeScenesRun, filterSegments, buildSegments, segmentsOf,
      List.range_succ, tempName]
    rfl
  · norm_num [mergeScenesRun, filterSegments, buildSegments, segmentsOf,
      List.range_succ, tempName]
    exact List.cons_ne_nil _ _

/-- Witness for C7 (amended): all trims succeed and the concatenation
succeeds; no temporary remains. -/
theorem mergeScenes_cleanup_on_success_witness :
    (∀ i : ℕ, (fun _ : ℕ => true) i = true) ∧
    (mergeScenesRun [1] 10 2 "merged.mp4" (fun _ => true) true).leftoverTemps
        = [] :=
  ⟨fun _ => rfl,
    mergeScenes_cleanup_on_success [1] 10 2 "merged.mp4" (fun _ => true)
      (fun _ => rfl)⟩

theorem insertDesc_const (k : ℚ) (x : Frame) (hx : x.score = k) :
    ∀ l : List Frame, (∀ a ∈ l, a.score = k) → insertDesc x l = x :: l
  | [], _ => rfl
  | y :: ys, h => by
    have hy : y.score ≤ x.score := by
      rw [h y (List.mem_cons_self _ _), hx]
    rw [insertDesc, if_pos hy]

theorem sortDesc_const (k : ℚ) :
    ∀ l : List Frame, (∀ a ∈ l, a.score = k) → sortDesc l = l
  | [], _ => rfl
  | x :: xs, h => by
    rw [sortDesc,
      sortDesc_const k xs (fun a ha => h a (List.mem_cons_of_mem _ ha)),
      insertDesc_const k x (h x (List.mem_cons_self _ _)) xs
        (fun a ha => h a (List.mem_cons_of_mem _ ha))]

theorem mem_insertDesc (x : Frame) :
    ∀ (l : List Frame) (y : Frame), y ∈ insertDesc x l → y = x ∨ y ∈ l
  | [], y, h => by
    rw [insertDesc] at h
    exact Or.inl (List.mem_singleton.mp h)
  | z :: zs, y, h => by
    rw [insertDesc] at h
    by_cases hc : z.score ≤ x.score
    · rw [if_pos hc] at h
      rcases List.mem_cons.mp h with rfl | h'
      · exact Or.inl rfl
      · exact Or.inr h'
    · rw [if_neg hc] at h
      rcases List.mem_cons.mp h with rfl | h'
      · exact Or.inr (List.mem_cons_self _ _)
      · rcases mem_insertDesc x zs y h' with h'' | h''
        · exact Or.inl h''
        · exact Or.inr (List.mem_cons_of_mem _ h'')

theorem mem_sortDesc :
    ∀ (l : List Frame) (y : Frame), y ∈ sortDesc l → y ∈ l
  | [], y, h => by
    rw [sortDesc] at h
    exact absurd h (List.not_mem_nil y)
  | x :: xs, y, h => by
    rw [sortDesc] at h
    rcases mem_insertDesc x _ y h with rfl | h'
    · exact List.mem_cons_self _ _
    · exact List.mem_cons_of_mem _ (mem_sortDesc xs y h')

theorem insertDesc_length (x : Frame) :
    ∀ l : List Frame, (insertDesc x l).length = l.length + 1
  | [] => rfl
  | y :: ys => by
    rw [insertDesc]
    by_cases hc : y.score ≤ x.score
    · rw [if_pos hc]
      rfl
    · rw [if_neg hc]
      simp [insertDesc_length x ys]

theorem sortDesc_length :
    ∀ l : List Frame, (sortDesc l).length = l.length
  | [] => rfl
  | x :: xs => by
    rw [sortDesc, insertDesc_length, sortDesc_length xs]
    rfl

/-- C8: with a constant quality function, `findBestThumbnailFrame`
returns the first sampled candidate timestamp, which is `0.1 * D`: the
stable sort keeps equal-score frames in sampling order, so the earliest
candidate wins the tie-break. -/
theorem findBestThumbnailFrame_constant (D k : ℚ) (c : ℕ)
    (hD : 0 < D) (hc : 0 < c) :
    findBestThumbnailFrame D c (fun _ => k) = (candidateTimestamps D c).head? ∧
    (candidateTimestamps D c).head? = some (D * (1/10)) := by
  constructor
  · rw [findBestThumbnailFrame]
    rw [sortDesc_const k _ (by
      intro a ha
      rcases List.mem_map.mp ha with ⟨t, _, rfl⟩
      rfl)]
    cases hh : (candidateTimestamps D c).head? with
    | none => simp [List.head?_map, hh]
    | some t => simp [List.head?_map, hh]
  · obtain ⟨n, rfl⟩ := Nat.exists_eq_succ_of_ne_zero (Nat.pos_iff_ne_zero.mp hc)
    rw [candidateTimestamps]
    simp [List.range_succ_eq_map]

/-- Witness for C8 at duration `10`, three candidates, constant score
`7`: the result is the first candidate, `1`. -/
theorem findBestThumbnailFrame_constant_witness :
    (0 : ℚ) < 10 ∧ 0 < 3 ∧
    (findBestThumbnailFrame 10 3 (fun _ => 7) = (candidateTimestamps 10 3).head? ∧
      (candidateTimestamps 10 3).head? = some (10 * (1/10))) :=
  ⟨by norm_num, by norm_num,
    findBestThumbnailFrame_constant 10 7 3 (by norm_num) (by norm_num)⟩

/-- C9: for positive duration and candidate count and every quality
function, `findBestThumbnailFrame` returns one of the sampled candidates
`0.1*D + i * ((0.9*D - 0.1*D) / candidateCount)` with `i < candidateCount`,
and that timestamp lies within `[0.1*D, 0.9*D]`. -/
theorem findBestThumbnailFrame_in_window (D : ℚ) (c : ℕ) (qualityFn : ℚ → ℚ)
    (hD : 0 < D) (hc : 0 < c) :
    ∃ t, findBestThumbnailFrame D c qualityFn = some t ∧
      (∃ i : ℕ, i < c ∧
        t = D * (1/10) + (i : ℚ) * ((D * (9/10) - D * (1/10)) / (c : ℚ))) ∧
      D * (1/10) ≤ t ∧ t ≤ D * (9/10) := by
  have hcq : (0 : ℚ) < (c : ℚ) := by exact_mod_cast hc
  rcases hS : sortDesc ((candidateTimestamps D c).map
      (fun t => Frame.mk t (qualityFn t))) with _ | ⟨f, rest⟩
  · exfalso
    have hlen := sortDesc_length ((candidateTimestamps D c).map
      (fun t => Frame.mk t (qualityFn t)))
    rw [hS] at hlen
    simp [candidateTimestamps] at hlen
    omega
  · have hfmem : f ∈ sortDesc ((candidateTimestamps D c).map
        (fun t => Frame.mk t (qualityFn t))) := by
      rw [hS]
      exact List.mem_cons_self _ _
    have hfin := mem_sortDesc _ _ hfmem
    rcases List.mem_map.mp hfin with ⟨t, ht, rfl⟩
    simp only [candidateTimestamps] at ht
    rcases List.mem_map.mp ht with ⟨i, hi, hti⟩
    have hi' : i < c := List.mem_range.mp hi
    have hW : (0 : ℚ) ≤ D * (9/10) - D * (1/10) := by linarith
    have hint : (0 : ℚ) ≤ (D * (9/10) - D * (1/10)) / (c : ℚ) :=
      div_nonneg hW (le_of_lt hcq)
    have hi1 : (i : ℚ) ≤ (c : ℚ) - 1 := by
      have : (i : ℚ) + 1 ≤ (c : ℚ) := by exact_mod_cast hi'
      linarith
    have hlow : (0 : ℚ) ≤ (i : ℚ) * ((D * (9/10) - D * (1/10)) / (c : ℚ)) :=
      mul_nonneg (Nat.cast_nonneg i) hint
    have h1 : (i : ℚ) * ((D * (9/10) - D * (1/10)) / (c : ℚ))
        ≤ ((c : ℚ) - 1) * ((D * (9/10) - D * (1/10)) / (c : ℚ)) :=
      mul_le_mul_of_nonneg_right hi1 hint
    have h2 : ((c : ℚ) - 1) * ((D * (9/10) - D * (1/10)) / (c : ℚ))
        = (D * (9/10) - D * (1/10)) - (D * (9/10) - D * (1/10)) / (c : ℚ) := by
      field_simp
      ring
    refine ⟨t, ?_, ⟨i, hi', hti.symm⟩, ?_, ?_⟩
    · rw [findBestThumbnailFrame, hS]
      rfl
    · rw [← hti]
      linarith
    · rw [← hti]
      linarith

/-- Witness for C9 at duration `10`, two candidates and the identity
quality function: the returned timestamp `5` is the second candidate and
lies within `[1, 9]`. -/
theorem findBestThumbnailFrame_in_window_witness :
    (0 : ℚ) < 10 ∧ 0 < 2 ∧
    (∃ t, findBestThumbnailFrame 10 2 (fun t => t) = some t ∧
      (∃ i : ℕ, i < 2 ∧
        t = 10 * (1/10) + (i : ℚ) * ((10 * (9/10) - 10 * (1/10)) / (2 : ℚ))) ∧
      10 * (1/10) ≤ t ∧ t ≤ 10 * (9/10)) :=
  ⟨by norm_num, by norm_num,
    findBestThumbnailFrame_in_window 10 2 (fun t => t) (by norm_num)
      (by norm_num)⟩

/-- C10: every successful `autoEdit` run reports
`clipsCreated = scenesDetected + 1`: the split step trims one clip per
consecutive pair of `[0, ...timestamps, duration]`, and the summary
records `timestamps.length` as `scenesDetected`. -/
theorem autoEdit_clip_count (detected fallback : List ℚ) (D minD : ℚ)
    (splitOk trimOk : ℕ → Bool) (concatOk : Bool) (r : AutoEditResult)
    (h : autoEditRun detected fallback D minD splitOk trimOk concatOk
      = Except.ok r) :
    r.clipsCreated = r.scenesDetected + 1 := by
  rw [autoEditRun] at h
  set ts := if detected.isEmpty then fallback else detected with hts
  by_cases hall : ((List.range (splitByScenes ts D).length).all splitOk : Prop)
  · rw [if_pos hall] at h
    rcases hm : (mergeScenesRun ts D minD "auto_merged.mp4" trimOk concatOk).result
      with e | f
    · rw [hm] at h
      simp at h
    · rw [hm] at h
      obtain rfl := (Except.ok.inj h).symm
      show (splitByScenes ts D).length = ts.length + 1
      rw [splitByScenes, segmentsOf_length]
      simp
  · rw [if_neg hall] at h
    simp at h

/-- Witness for C10 at detected change points `[1, 2]`, duration `10`,
all engine steps succeeding: the run returns
`scenesDetected = 2`, `clipsCreated = 3`. -/
theorem autoEdit_clip_count_witness :
    autoEditRun [1, 2] [] 10 1 (fun _ => true) (fun _ => true) true
        = Except.ok ⟨10, 2, 3, "auto_merged.mp4"⟩ ∧
    (AutoEditResult.mk 10 2 3 "auto_merged.mp4").clipsCreated
        = (AutoEditResult.mk 10 2 3 "auto_merged.mp4").scenesDetected + 1 :=
  ⟨by norm_num [autoEditRun, mergeScenesRun, splitByScenes, filterSegments,
      buildSegments, segmentsOf, List.range_succ, tempName],
    autoEdit_clip_count [1, 2] [] 10 1 (fun _ => true) (fun _ => true) true
      ⟨10, 2, 3, "auto_merged.mp4"⟩
      (by norm_num [autoEditRun, mergeScenesRun, splitByScenes, filterSegments,
        buildSegments, segmentsOf, List.range_succ, tempName])⟩

end VideoSceneEditor

